import Mathlib

/-!
Verification of otrcat's session-orchestration core against its design
specification.  The Go source is shallowly embedded: byte sequences are
lists of naturals, the delimited frame codec (message.go) is a pure
function over an explicit chunk stream, the authorization policy and flag
validation (mainloop.go / otrcat.go) are pure functions over an explicit
contact book, and the select-based event loop (mainLoop) is a step
function over an explicit event sequence where the external OTR engine's
outputs travel with each event.
-/

namespace Otrcat

/-- Byte sequences (Go `[]byte`) are lists of naturals; byte values are
only ever compared for equality. -/
abbrev Bytes := List Nat

/-! ## FrameCodec (src/message.go) -/

/-- Embeds Go `bytes.Index(s, sep)`: the index of the first occurrence of
`sep` in `s`, `none` when there is none (Go returns -1).  `bytesIndex s []`
is `some 0`, as in Go. -/
def bytesIndex : Bytes → Bytes → Option Nat
  | [], sep => if sep = [] then some 0 else none
  | a :: t, sep =>
    if (a :: t).take sep.length = sep then some 0
    else (bytesIndex t sep).map (· + 1)

/-- Embeds `DelimitedEncoder.Encode`: the bytes written for one frame are
the frame followed by the delimiter (`append(data, e.delimiter...)`). -/
def Encode (delimiter data : Bytes) : Bytes := data ++ delimiter

/-- The outcome of one `DelimitedDecoder.Decode` call: a frame together
with the residual queue and the unread chunks, a clean end of stream
(`io.EOF` with nothing buffered), or the "Stream closed mid-message"
error. -/
inductive DecodeResult where
  | frame (buf : Bytes) (queue : Bytes) (chunks : List Bytes)
  | eofClean
  | errorClosedMid
  deriving DecidableEq

/-- Embeds `DelimitedDecoder.Decode`.  The reader is modelled as the list
of chunks its successive successful `Read` calls return, followed by
`io.EOF`.  The loop scans the queue for the delimiter before each read;
on a hit it yields `queue[:n]` and keeps `queue[n+len(delimiter):]`; at
end of stream it fails if bytes are buffered and ends cleanly otherwise.
(The delimiter test is placed inside each chunk case only to make the
recursion structural; both cases test it first, as the source does.) -/
def Decode (delimiter : Bytes) : Bytes → List Bytes → DecodeResult
  | queue, [] =>
    match bytesIndex queue delimiter with
    | some n => .frame (queue.take n) (queue.drop (n + delimiter.length)) []
    | none => if queue.length > 0 then .errorClosedMid else .eofClean
  | queue, c :: cs =>
    match bytesIndex queue delimiter with
    | some n => .frame (queue.take n) (queue.drop (n + delimiter.length)) (c :: cs)
    | none => Decode delimiter (queue ++ c) cs

/-- The decoder's error message on a truncated stream. -/
def closedMidMsg : String := "Stream closed mid-message"

/-- Embeds the `DecodeForever` loop of message.go collecting the decoded
frames: repeat `Decode` until clean end of stream (`.ok` with the frames
in order) or a decode error (`exitError`, modelled as `.error`).  `fuel`
bounds the number of frames only; one unit is spent per decoded frame. -/
def DecodeAll : Nat → Bytes → Bytes → List Bytes → Except String (List Bytes)
  | 0, _, _, _ => .error "fuel exhausted"
  | fuel + 1, delimiter, queue, chunks =>
    match Decode delimiter queue chunks with
    | .eofClean => .ok []
    | .errorClosedMid => .error closedMidMsg
    | .frame f q cs => (DecodeAll fuel delimiter q cs).map (f :: ·)

theorem bytesIndex_cons_single (a d : Nat) (t : Bytes) :
    bytesIndex (a :: t) [d] = if a = d then some 0 else (bytesIndex t [d]).map (· + 1) := by
  simp only [bytesIndex, List.length_cons, List.length_nil, List.take_succ_cons,
    List.take_zero, List.cons.injEq, and_true]

theorem bytesIndex_append_single (d : Nat) (f rest : Bytes) (hf : d ∉ f) :
    bytesIndex (f ++ d :: rest) [d] = some f.length := by
  induction f with
  | nil => simp [bytesIndex_cons_single]
  | cons a t ih =>
    have ha : a ≠ d := fun h => hf (by simp [h])
    have ht : d ∉ t := fun h => hf (List.mem_cons_of_mem _ h)
    simp [List.cons_append, bytesIndex_cons_single, ha, ih ht]

theorem bytesIndex_single_of_not_mem (d : Nat) (q : Bytes) (h : d ∉ q) :
    bytesIndex q [d] = none := by
  induction q with
  | nil => simp [bytesIndex]
  | cons a t ih =>
    have ha : a ≠ d := fun hh => h (by simp [hh])
    have ht : d ∉ t := fun hh => h (List.mem_cons_of_mem _ hh)
    simp [bytesIndex_cons_single, ha, ih ht]

theorem bytesIndex_spec : ∀ (queue sep : Bytes) (n : Nat),
    bytesIndex queue sep = some n →
    queue = queue.take n ++ sep ++ queue.drop (n + sep.length) := by
  intro queue
  induction queue with
  | nil =>
    intro sep n h
    simp only [bytesIndex] at h
    by_cases hs : sep = []
    · simp [hs] at h ⊢
    · simp [hs] at h
  | cons a t ih =>
    intro sep n h
    simp only [bytesIndex] at h
    by_cases hp : (a :: t).take sep.length = sep
    · rw [if_pos hp] at h
      cases h
      simp only [List.take_zero, List.nil_append, Nat.zero_add]
      conv_lhs => rw [← List.take_append_drop sep.length (a :: t)]
      rw [hp]
    · rw [if_neg hp] at h
      rcases Option.map_eq_some'.mp h with ⟨m, hm, rfl⟩
      have := ih sep m hm
      calc a :: t = a :: (t.take m ++ sep ++ t.drop (m + sep.length)) := by rw [← this]
        _ = (a :: t).take (m + 1) ++ sep ++ (a :: t).drop (m + 1 + sep.length) := by
            rw [List.take_succ_cons]
            have : m + 1 + sep.length = (m + sep.length) + 1 := by omega
            rw [this, List.drop_succ_cons]
            simp [List.append_assoc]

theorem decode_eof_of_join_nil (delimiter : Bytes) (hd : delimiter ≠ []) :
    ∀ chunks : List Bytes, chunks.flatten = [] → Decode delimiter [] chunks = .eofClean := by
  intro chunks
  induction chunks with
  | nil =>
    intro _
    simp [Decode, bytesIndex, hd]
  | cons c cs ih =>
    intro h
    rw [List.flatten_cons] at h
    rcases List.append_eq_nil.mp h with ⟨hc, hcs⟩
    simp only [Decode, bytesIndex, if_neg hd]
    rw [hc]
    simpa using ih hcs

theorem decode_error_of_no_delim (d : Nat) :
    ∀ (chunks : List Bytes) (queue : Bytes), d ∉ queue → d ∉ chunks.flatten →
      queue ++ chunks.flatten ≠ [] → Decode [d] queue chunks = .errorClosedMid := by
  intro chunks
  induction chunks with
  | nil =>
    intro queue hq _ hne
    have hlen : queue.length > 0 := by
      cases queue with
      | nil => simp at hne
      | cons a t => simp
    simp [Decode, bytesIndex_single_of_not_mem d queue hq, hlen]
  | cons c cs ih =>
    intro queue hq hj hne
    have hc : d ∉ c := fun h => hj (by simp [h])
    have hcs : d ∉ cs.flatten := fun h => hj (by simp [h])
    simp only [Decode, bytesIndex_single_of_not_mem d queue hq]
    apply ih (queue ++ c)
    · intro h
      rcases List.mem_append.mp h with h | h
      · exact hq h
      · exact hc h
    · exact hcs
    · intro h
      apply hne
      rw [List.flatten_cons, ← List.append_assoc]
      exact h

theorem decode_conservation (delimiter : Bytes) :
    ∀ (chunks : List Bytes) (queue f q' : Bytes) (cs' : List Bytes),
      Decode delimiter queue chunks = .frame f q' cs' →
      queue ++ chunks.flatten = f ++ delimiter ++ (q' ++ cs'.flatten) := by
  intro chunks
  induction chunks with
  | nil =>
    intro queue f q' cs' h
    simp only [Decode] at h
    cases hbi : bytesIndex queue delimiter with
    | none =>
      rw [hbi] at h
      by_cases hq : queue.length > 0 <;> simp [hq] at h
    | some n =>
      rw [hbi] at h
      cases h
      have := bytesIndex_spec queue delimiter n hbi
      conv_lhs => rw [this]
      simp [List.append_assoc]
  | cons c cs ih =>
    intro queue f q' cs' h
    simp only [Decode] at h
    cases hbi : bytesIndex queue delimiter with
    | none =>
      rw [hbi] at h
      have := ih (queue ++ c) f q' cs' h
      calc queue ++ (c :: cs).flatten = (queue ++ c) ++ cs.flatten := by simp [List.append_assoc]
        _ = f ++ delimiter ++ (q' ++ cs'.flatten) := this
    | some n =>
      rw [hbi] at h
      cases h
      have := bytesIndex_spec queue delimiter n hbi
      conv_lhs => rw [this]
      simp [List.append_assoc]

theorem decode_frame (d : Nat) (f rest : Bytes) (hf : d ∉ f) :
    ∀ (chunks : List Bytes) (queue : Bytes),
      queue ++ chunks.flatten = f ++ d :: rest →
      ∃ q' cs', Decode [d] queue chunks = .frame f q' cs' ∧ q' ++ cs'.flatten = rest := by
  intro chunks
  induction chunks with
  | nil =>
    intro queue h
    simp only [List.flatten_nil, List.append_nil] at h
    subst h
    refine ⟨rest, [], ?_, by simp⟩
    simp only [Decode, bytesIndex_append_single d f rest hf]
    have htake : (f ++ d :: rest).take f.length = f := List.take_left f (d :: rest)
    have hdrop : (f ++ d :: rest).drop (f.length + [d].length) = rest := by
      have h2 : f ++ d :: rest = (f ++ [d]) ++ rest := by simp
      have h3 : f.length + [d].length = (f ++ [d]).length := by simp
      rw [h2, h3, List.drop_left]
    rw [htake, hdrop]
  | cons c cs ih =>
    intro queue h
    by_cases hlen : queue.length ≤ f.length
    · -- the queue is still a delimiter-free prefix of f: the decoder reads chunk c
      have hqpre : queue = f.take queue.length := by
        have h1 : queue = (f ++ d :: rest).take queue.length := by
          conv_lhs => rw [← List.take_left queue ((c :: cs).flatten)]
          rw [h]
        conv_lhs => rw [h1]
        exact List.take_append_of_le_length hlen
      have hq : d ∉ queue := by
        rw [hqpre]
        exact fun hm => hf (List.take_subset _ _ hm)
      simp only [Decode, bytesIndex_single_of_not_mem d queue hq]
      apply ih (queue ++ c)
      simpa [List.append_assoc] using h
    · -- the delimiter closing f is already inside the queue
      push_neg at hlen
      have hle : f.length + 1 ≤ queue.length := hlen
      have htake1 : queue.take (f.length + 1) = f ++ [d] := by
        have h1 : queue.take (f.length + 1) = (queue ++ (c :: cs).flatten).take (f.length + 1) :=
          (List.take_append_of_le_length hle).symm
        rw [h1, h]
        have h2 : f ++ d :: rest = (f ++ [d]) ++ rest := by simp
        have h3 : f.length + 1 = (f ++ [d]).length := by simp
        rw [h2, h3, List.take_left]
      have hqsplit : queue = (f ++ [d]) ++ queue.drop (f.length + 1) := by
        conv_lhs => rw [← List.take_append_drop (f.length + 1) queue]
        rw [htake1]
      refine ⟨queue.drop (f.length + 1), c :: cs, ?_, ?_⟩
      · have hbi : bytesIndex queue [d] = some f.length := by
          conv_lhs => rw [hqsplit]
          simpa [List.append_assoc] using
            bytesIndex_append_single d f (queue.drop (f.length + 1)) hf
        simp only [Decode, hbi]
        have htakef : queue.take f.length = f := by
          conv_lhs => rw [hqsplit]
          rw [List.append_assoc, List.take_append_of_le_length (by simp),
            List.take_length]
        have hl : f.length + [d].length = f.length + 1 := by simp
        rw [htakef, hl]
      · -- cancel the prefix f ++ [d] in h
        have h3 : (f ++ [d]) ++ (queue.drop (f.length + 1) ++ (c :: cs).flatten)
            = (f ++ [d]) ++ rest := by
          calc (f ++ [d]) ++ (queue.drop (f.length + 1) ++ (c :: cs).flatten)
              = ((f ++ [d]) ++ queue.drop (f.length + 1)) ++ (c :: cs).flatten := by
                simp [List.append_assoc]
            _ = queue ++ (c :: cs).flatten := by rw [← hqsplit]
            _ = f ++ d :: rest := h
            _ = (f ++ [d]) ++ rest := by simp
        exact List.append_cancel_left h3

theorem decodeAll_encode (d : Nat) :
    ∀ (fs : List Bytes) (queue : Bytes) (chunks : List Bytes),
      (∀ f ∈ fs, d ∉ f) →
      queue ++ chunks.flatten = (fs.map (Encode [d])).flatten →
      DecodeAll (fs.length + 1) [d] queue chunks = .ok fs := by
  intro fs
  induction fs with
  | nil =>
    intro queue chunks _ h
    simp only [List.map_nil, List.flatten_nil] at h
    rcases List.append_eq_nil.mp h with ⟨hq, hc⟩
    subst hq
    simp [DecodeAll, decode_eof_of_join_nil [d] (by simp) chunks hc]
  | cons f fs ih =>
    intro queue chunks hmem h
    have hf : d ∉ f := hmem f (List.mem_cons_self f fs)
    have h' : queue ++ chunks.flatten = f ++ d :: (fs.map (Encode [d])).flatten := by
      rw [h]
      simp [Encode, List.append_assoc]
    obtain ⟨q', cs', hdec, hrest⟩ := decode_frame d f _ hf chunks queue h'
    have hrec := ih q' cs' (fun g hg => hmem g (List.mem_cons_of_mem _ hg)) hrest
    show DecodeAll (fs.length + 1 + 1) [d] queue chunks = .ok (f :: fs)
    rw [DecodeAll]
    simp only [hdec]
    rw [hrec]
    rfl

/-- C5: for frames `f1..fn` over a one-byte delimiter `d` (otrcat uses the
newline byte), none containing the delimiter, decoding the concatenation
of their encodings — split into arbitrary chunks — yields exactly
`f1..fn` in order; in particular a single encoded frame round-trips. -/
theorem decode_encode_roundtrip (d : Nat) (fs chunks : List Bytes)
    (hmem : ∀ f ∈ fs, d ∉ f)
    (hchunks : chunks.flatten = (fs.map (Encode [d])).flatten) :
    DecodeAll (fs.length + 1) [d] [] chunks = .ok fs ∧
    ∀ x : Bytes, d ∉ x → DecodeAll 2 [d] [] [Encode [d] x] = .ok [x] := by
  constructor
  · exact decodeAll_encode d fs [] chunks hmem (by simpa using hchunks)
  · intro x hx
    have := decodeAll_encode d [x] [] [Encode [d] x]
      (by intro f hf; simp at hf; subst hf; exact hx)
      (by simp)
    simpa using this

/-- Witness for C5: the frames `[1,2]` and `[3]`, newline-delimited and
refragmented across chunk boundaries, decode back to themselves; and the
single frame `[7]` round-trips. -/
theorem decode_encode_roundtrip_witness :
    DecodeAll 3 [10] [] [[1], [2, 10, 3], [10]] = .ok [[1, 2], [3]] ∧
    DecodeAll 2 [10] [] [Encode [10] [7]] = .ok [[7]] := by
  have h := decode_encode_roundtrip 10 [[1, 2], [3]] [[1], [2, 10, 3], [10]]
    (by decide) (by decide)
  exact ⟨h.1, h.2 [7] (by decide)⟩

/-- C6: the decoder ends cleanly at end of stream with an empty residual
buffer; it fails with "Stream closed mid-message" at end of stream with a
non-empty undelimited residual (in particular a truncated encoding never
yields a frame); and every byte consumed is accounted for: when a frame is
yielded the input splits exactly into the frame, the delimiter, and the
retained remainder. -/
theorem decode_eof_handling (d : Nat) :
    Decode [d] [] [] = .eofClean
    ∧ (∀ q : Bytes, q ≠ [] → d ∉ q → Decode [d] q [] = .errorClosedMid)
    ∧ (∀ (x : Bytes) (chunks : List Bytes) (n : Nat), d ∉ x → x ≠ [] →
        chunks.flatten = x → DecodeAll (n + 1) [d] [] chunks = .error closedMidMsg)
    ∧ (∀ (delimiter queue f q' : Bytes) (chunks cs' : List Bytes),
        Decode delimiter queue chunks = .frame f q' cs' →
        queue ++ chunks.flatten = f ++ delimiter ++ (q' ++ cs'.flatten)) := by
  refine ⟨?_, ?_, ?_, ?_⟩
  · exact decode_eof_of_join_nil [d] (by simp) [] rfl
  · intro q hq hd
    exact decode_error_of_no_delim d [] q hd (by simp) (by simpa using hq)
  · intro x chunks n hdx hx hfl
    have herr : Decode [d] [] chunks = .errorClosedMid := by
      apply decode_error_of_no_delim d chunks []
      · simp
      · rw [hfl]; exact hdx
      · rw [hfl]; simpa using hx
    rw [DecodeAll]
    simp only [herr]
  · exact fun delimiter queue f q' chunks cs' h =>
      decode_conservation delimiter chunks queue f q' cs' h

/-- Witness for C6: at the newline delimiter, the empty stream ends
cleanly, the truncated residual `[7]` is a framing error (also through the
full decoding loop), and the bytes of `[7,10,3]` split as frame `[7]`,
delimiter, remainder `[3]`. -/
theorem decode_eof_handling_witness :
    Decode [10] [] [] = .eofClean
    ∧ Decode [10] [7] [] = .errorClosedMid
    ∧ DecodeAll 1 [10] [] [[7]] = .error closedMidMsg
    ∧ ([7] ++ ([[10, 3]] : List Bytes).flatten
        = [7] ++ [10] ++ ([3] ++ ([] : List Bytes).flatten)) := by
  have h := decode_eof_handling 10
  refine ⟨h.1, h.2.1 [7] (by decide) (by decide),
    h.2.2.1 [7] [[7]] 0 (by decide) (by decide) (by decide),
    h.2.2.2 [10] [7] [7] [3] [[10, 3]] [] (by decide)⟩

/-! ## ContactBook and authorization policy (src/mainloop.go, src/otrcat.go) -/

/-- The two global contact maps of otrcat.go, as association lists with
Go-map lookup semantics (`List.lookup` finds the most recent binding). -/
structure ContactBook where
  contacts : List (String × String)
  contactsReverse : List (String × String)
  deriving DecidableEq

/-- Go `contactsReverse[fingerprint]`. -/
def ContactBook.lookupRev (book : ContactBook) (fingerprint : String) : Option String :=
  book.contactsReverse.lookup fingerprint

/-- Go `contacts[name]`. -/
def ContactBook.lookupName (book : ContactBook) (name : String) : Option String :=
  book.contacts.lookup name

/-- The map assignments `contacts[remember] = fingerprint` and
`contactsReverse[fingerprint] = remember`. -/
def ContactBook.insert (book : ContactBook) (name fingerprint : String) : ContactBook :=
  ⟨(name, fingerprint) :: book.contacts, (fingerprint, name) :: book.contactsReverse⟩

/-- The conversation-relevant command-line globals: `anyone`, `remember`
and `expect` (an empty string means the flag is unset, as in Go). -/
structure Config where
  anyone : Bool
  remember : String
  expect : String
  deriving DecidableEq

/-- Observable side effects of the orchestrator and of the authorization
policy: queue operations, crypto-engine calls, stderr diagnostics, and the
contact-store write. -/
inductive Action where
  | netOut (frame : Bytes)
  | netOutNil
  | stdOut (plaintext : Bytes)
  | stderrMsg (msg : String)
  | callSend (plaintext : Bytes)
  | callRecv
  | callEnd
  | startLocalPumps
  | saveContactsAct
  deriving DecidableEq

/-- Outcome of `authoriseRemember`: a fatal `exitPrintf` (process exit
status 1), or success with the possibly-updated contact book and the
stderr/persistence effects in program order. -/
inductive AuthResult where
  | exited (msg : String)
  | ok (book : ContactBook) (effects : List Action)
  deriving DecidableEq

def AuthResult.isAllow : AuthResult → Bool
  | .exited _ => false
  | .ok _ _ => true

def expectUnknownMsg (e : String) : String :=
  "Expected contact '" ++ e ++ "', but the contact is unknown.\n"

def expectOtherMsg (e n : String) : String :=
  "Expected contact '" ++ e ++ "', but the contact is '" ++ n ++ "'.\n"

def unknownContactMsg : String :=
  "The contact is unknown.  Use -anyone or -remember to talk to unknown contacts.\n"

def warnKnownMsg (n : String) : String :=
  "Warning: Expected an unknown contact, but the contact is known as '" ++ n ++ "'.\n"

def rememberingMsg (n : String) : String :=
  "Remembering contact '" ++ n ++ "'.\n"

def contactIsMsg (n : String) : String :=
  "The contact is '" ++ n ++ "'.\n"

/-- Embeds `authoriseRemember` (src/mainloop.go lines 26-62): the Go map
read `name, known := contactsReverse[fingerprint]`, the `expect` branch,
the `!anyone && !known` rejection, the known-contact warning under
`-remember`, the remember-and-save branch, and the name report. -/
def authoriseRemember (cfg : Config) (book : ContactBook) (fingerprint : String) :
    AuthResult :=
  let found := book.lookupRev fingerprint
  let known := found.isSome
  let name := found.getD ""
  if cfg.expect ≠ "" then
    if !known then .exited (expectUnknownMsg cfg.expect)
    else if name ≠ cfg.expect then .exited (expectOtherMsg cfg.expect name)
    else .ok book []
  else if !cfg.anyone && !known then .exited unknownContactMsg
  else
    let warnEffects := if cfg.remember ≠ "" && known
      then [Action.stderrMsg (warnKnownMsg name)] else []
    let rememberStep := if cfg.remember ≠ "" && !known
      then (book.insert cfg.remember fingerprint,
            [Action.stderrMsg (rememberingMsg cfg.remember), Action.saveContactsAct])
      else (book, [])
    let reportEffects := if cfg.remember = "" && known
      then [Action.stderrMsg (contactIsMsg name)] else []
    .ok rememberStep.1 (warnEffects ++ rememberStep.2 ++ reportEffects)

/-- Default mode: no flags set. -/
def defaultCfg : Config := ⟨false, "", ""⟩

/-- `-anyone`. -/
def anyoneCfg : Config := ⟨true, "", ""⟩

/-- `-expect NAME`. -/
def expectCfg (name : String) : Config := ⟨false, "", name⟩

/-- `-remember NAME`; `anyone` is true because `parseConversationFlags`
sets `anyone = true` whenever `remember` is non-empty. -/
def rememberCfg (name : String) : Config := ⟨true, name, ""⟩

/-! ## Flag validation (src/otrcat.go, parseConversationFlags) -/

def OTRPort : String := ":2147"

def mutualExpectRememberMsg : String :=
  "The -expect and -remember options are mutually exclusive.\n"

def mutualExpectAnyoneMsg : String :=
  "The -expect and -anyone options are mutually exclusive.\n"

def cantExpectMsg (e : String) : String :=
  "Can't expect unknown contact '" ++ e ++ "'.\n"

def cantRememberMsg (r : String) : String :=
  "Can't re-remember an already known contact '" ++ r ++ "'.\n"

def cantListenMsg (a : String) : String :=
  "Can't listen on a remote address (" ++ a ++ ").  Specify a local port with ':port'.\n"

/-- Go `strings.HasPrefix`, over the string's character list. -/
def strHasPrefix (s pre : String) : Bool := pre.data.isPrefixOf s.data

/-- Go `strings.Contains(s, ":")`, over the string's character list. -/
def strContainsColon (s : String) : Bool := s.data.contains ':'

/-- Embeds `parseConversationFlags` (src/otrcat.go lines 255-293) as a
function of the flag globals, the loaded `contacts` map, the command name
and its non-flag arguments.  `.error` is a fatal `exitPrintf`; `.ok`
carries the updated `anyone` flag and the resolved address. -/
def parseConversationFlags (anyone0 : Bool) (remember expect : String)
    (contacts : List (String × String)) (cmdName : String) (args : List String)
    (address : String) : Except String (Bool × String) :=
  let anyone := if remember ≠ "" then true else anyone0
  if expect ≠ "" && remember ≠ "" then .error mutualExpectRememberMsg
  else if anyone && expect ≠ "" then .error mutualExpectAnyoneMsg
  else if expect ≠ "" && (contacts.lookup expect).isNone then .error (cantExpectMsg expect)
  else if remember ≠ "" && (contacts.lookup remember).isSome then
    .error (cantRememberMsg remember)
  else if cmdName = "proxy" then .ok (anyone, address)
  else match args with
    | [a] =>
      if cmdName = "listen" && !(strHasPrefix a ":") then .error (cantListenMsg a)
      else .ok (anyone, if strContainsColon a then a else a ++ OTRPort)
    | _ => .ok (anyone, address)

/-- One step of the `connect` subcommand after key/contact loading
(src/otrcat.go lines 316-326): flag validation runs first; only when it
does not exit is the TCP connection dialed and `mainLoop` entered. -/
inductive ConnectStep where
  | exitFatal (msg : String)
  | dial (address : String)
  | runMainLoop
  deriving DecidableEq

/-- The sequence of observable steps `connect` performs around
`parseConversationFlags`. -/
def connectRun (anyone0 : Bool) (remember expect : String)
    (contacts : List (String × String)) (args : List String) (address : String) :
    List ConnectStep :=
  match parseConversationFlags anyone0 remember expect contacts "connect" args address with
  | .error m => [.exitFatal m]
  | .ok (_, addr) => [.dial addr, .runMainLoop]

/-! ## The event loop (src/mainloop.go, mainLoop)

The select loop handles one channel event per iteration.  The external
OTR engine is an oracle: the outputs of `conv.Send`, `conv.Receive`,
`conv.IsEncrypted` and `conv.TheirPublicKey.Fingerprint()` for an event
travel with that event, and `conv.End`'s frames are a parameter of the
run.  The initial `stdInChan <- []byte(otr.QueryMessage)` is the first
`stdIn` event of the run. -/

/-- Oracle output of `conv.Send(plaintext)`. -/
structure SendResult where
  toSend : List Bytes
  err : Option String
  deriving DecidableEq

/-- Oracle output of one `conv.Receive(otrText)` call together with the
`conv.IsEncrypted()` and fingerprint reads that follow it. -/
structure RecvResult where
  plaintext : Bytes
  encrypted : Bool
  ended : Bool
  toSend : List Bytes
  err : Option String
  isEncryptedNow : Bool
  fingerprint : String
  deriving DecidableEq

/-- One event the select loop can wake on: the interrupt signal, a local
plaintext buffer (`none` when `stdInChan` is closed), or a remote frame
(`none` when `netInChan` is closed). -/
inductive Event where
  | sigTerm
  | stdIn (data : Option (Bytes × SendResult))
  | netIn (data : Option RecvResult)
  deriving DecidableEq

/-- The loop's mutable state: the `authorised` flag, the recorded
`theirFingerprint`, and the contact book `authoriseRemember` may extend. -/
structure LoopState where
  authorised : Bool
  theirFingerprint : String
  book : ContactBook
  deriving DecidableEq

/-- What one loop iteration does: keep looping, `break Loop` into the
graceful shutdown phase, `return` from `mainLoop` (process exit 0), or a
fatal `exitPrintf`/`exitError` (process exit 1).  Each carries the actions
performed during the iteration, in order. -/
inductive StepOut where
  | cont (s : LoopState) (tr : List Action)
  | breakLoop (tr : List Action)
  | ret (tr : List Action)
  | fatal (msg : String) (tr : List Action)
  deriving DecidableEq

def StepOut.trace : StepOut → List Action
  | .cont _ tr => tr
  | .breakLoop tr => tr
  | .ret tr => tr
  | .fatal _ tr => tr

def utf8Msg : String :=
  "The OTR protocol only supports UTF8-encoded text.\n" ++
  "Please use base64 or another suitable encoding for binary data.\n"

def contactChangedMsg : String := "The contact changed mid-conversation.\n"

def unencryptedMsg : String := "Received unencrypted or unauthenticated text.\n"

def droppedDeniableMsg : String :=
  "Connection dropped!  Recent messages might not be deniable.\n"

def droppedMsg : String := "Connection dropped!\n"

/-- Go `bytes.Index(plaintext, []byte{0}) != -1`. -/
def containsNull (p : Bytes) : Bool := p.contains 0

/-- The tail of the `netInChan` case (src/mainloop.go lines 223-228): a
non-empty decrypted plaintext is delivered to `stdOutChan` only when the
frame was encrypted and the session is authorised; otherwise the process
exits fatally. -/
def deliver (s : LoopState) (r : RecvResult) (tr : List Action) : StepOut :=
  if r.plaintext.length > 0 then
    if !r.encrypted || !s.authorised then .fatal unencryptedMsg tr
    else .cont s (tr ++ [Action.stdOut r.plaintext])
  else .cont s tr

/-- One iteration of mainLoop's select (src/mainloop.go lines 165-230),
handling a single event. -/
def step (cfg : Config) (s : LoopState) : Event → StepOut
  | .sigTerm => .breakLoop []
  | .stdIn none => .breakLoop []
  | .stdIn (some (plaintext, sr)) =>
    if containsNull plaintext then .breakLoop [Action.stderrMsg utf8Msg]
    else match sr.err with
      | some e => .fatal e [Action.callSend plaintext]
      | none => .cont s (Action.callSend plaintext :: sr.toSend.map Action.netOut)
  | .netIn none =>
    .fatal (if s.authorised then droppedDeniableMsg else droppedMsg) []
  | .netIn (some r) =>
    match r.err with
    | some e => .fatal e [Action.callRecv]
    | none =>
      if r.ended then .ret [Action.callRecv]
      else
        let tr0 := Action.callRecv :: r.toSend.map Action.netOut
        if r.isEncryptedNow then
          if s.authorised && s.theirFingerprint ≠ r.fingerprint then
            .fatal contactChangedMsg tr0
          else if !s.authorised then
            match authoriseRemember cfg s.book r.fingerprint with
            | .exited m => .fatal m tr0
            | .ok book' authEffects =>
              let s' : LoopState := ⟨true, r.fingerprint, book'⟩
              deliver s' r (tr0 ++ authEffects ++ [Action.startLocalPumps])
          else deliver s r tr0
        else deliver s r tr0

/-- Whether the remaining events report that `netInChan` was closed; the
shutdown loop only selects on `netInChan`, so other queued events do not
affect it. -/
def hasNetInClosed : List Event → Bool
  | [] => false
  | .netIn none :: _ => true
  | _ :: evs => hasNetInClosed evs

/-- How a whole `mainLoop` run over a finite event sequence ends:
`returned` is a normal return (process exit status 0), `fatal` an
`exitPrintf`/`exitError` (exit status 1), and `blocked` means the loop is
still waiting for further events. -/
inductive Outcome where
  | returned
  | fatal (msg : String)
  | blocked
  deriving DecidableEq

structure RunResult where
  outcome : Outcome
  trace : List Action
  deriving DecidableEq

/-- `mainLoop` over a finite event sequence: iterate `step`; on
`break Loop` run the shutdown sequence (src/mainloop.go lines 236-248):
`conv.End()`, whose frames `endFrames` are sent in order, then the `nil`
stop sentinel, then wait until `netInChan` reports closure — returning
only then. -/
def runLoop (cfg : Config) (endFrames : List Bytes) :
    LoopState → List Event → RunResult
  | _, [] => ⟨.blocked, []⟩
  | s, ev :: evs =>
    match step cfg s ev with
    | .cont s' tr =>
      let r := runLoop cfg endFrames s' evs
      ⟨r.outcome, tr ++ r.trace⟩
    | .ret tr => ⟨.returned, tr⟩
    | .fatal msg tr => ⟨.fatal msg, tr⟩
    | .breakLoop tr =>
      ⟨if hasNetInClosed evs then .returned else .blocked,
       tr ++ Action.callEnd :: (endFrames.map Action.netOut ++ [Action.netOutNil])⟩

/-! ## Claim theorems: authorization policy and flag validation -/

/-- C3: `authoriseRemember` per mode.  Default: allow exactly on a known
fingerprint (reporting the name), else exit fatally.  `expect NAME`: allow
exactly when the fingerprint's bound name is NAME, else exit fatally
(including unknown fingerprints).  `anyone`: always allow, reporting the
name when known.  `remember NAME`: always allow; an unknown fingerprint is
added to both contact maps and the store is persisted exactly once, a
known one leaves the book unchanged with a warning. -/
theorem authoriseRemember_modes (book : ContactBook) (fp name : String)
    (hname : name ≠ "") :
    (authoriseRemember defaultCfg book fp =
      match book.lookupRev fp with
      | some n => .ok book [Action.stderrMsg (contactIsMsg n)]
      | none => .exited unknownContactMsg)
    ∧ (authoriseRemember (expectCfg name) book fp =
      match book.lookupRev fp with
      | none => .exited (expectUnknownMsg name)
      | some n => if n = name then .ok book [] else .exited (expectOtherMsg name n))
    ∧ (authoriseRemember anyoneCfg book fp =
      match book.lookupRev fp with
      | some n => .ok book [Action.stderrMsg (contactIsMsg n)]
      | none => .ok book [])
    ∧ (authoriseRemember (rememberCfg name) book fp =
      match book.lookupRev fp with
      | some n => .ok book [Action.stderrMsg (warnKnownMsg n)]
      | none => .ok (book.insert name fp)
          [Action.stderrMsg (rememberingMsg name), Action.saveContactsAct]) := by
  refine ⟨?_, ?_, ?_, ?_⟩
  · cases hl : book.lookupRev fp with
    | none => simp [authoriseRemember, defaultCfg, hl]
    | some n => simp [authoriseRemember, defaultCfg, hl]
  · cases hl : book.lookupRev fp with
    | none => simp [authoriseRemember, expectCfg, hl, hname]
    | some n =>
      by_cases hn : n = name
      · simp [authoriseRemember, expectCfg, hl, hname, hn]
      · simp [authoriseRemember, expectCfg, hl, hname, hn]
  · cases hl : book.lookupRev fp with
    | none => simp [authoriseRemember, anyoneCfg, hl]
    | some n => simp [authoriseRemember, anyoneCfg, hl]
  · cases hl : book.lookupRev fp with
    | none => simp [authoriseRemember, rememberCfg, hl, hname]
    | some n => simp [authoriseRemember, rememberCfg, hl, hname]

/-- Witness for C3 at the spec's authorization matrix: with contact book
{alice ↦ AA11}, `remember bob` on unknown fingerprint BB22 allows, binds
bob ↦ BB22 in both maps and saves once; `expect alice` on BB22 exits; the
default mode allows AA11. -/
theorem authoriseRemember_modes_witness :
    authoriseRemember (rememberCfg "bob")
        ⟨[("alice", "AA11")], [("AA11", "alice")]⟩ "BB22"
      = .ok ⟨[("bob", "BB22"), ("alice", "AA11")],
             [("BB22", "bob"), ("AA11", "alice")]⟩
          [Action.stderrMsg (rememberingMsg "bob"), Action.saveContactsAct]
    ∧ authoriseRemember (expectCfg "alice")
        ⟨[("alice", "AA11")], [("AA11", "alice")]⟩ "BB22"
      = .exited (expectUnknownMsg "alice")
    ∧ authoriseRemember defaultCfg
        ⟨[("alice", "AA11")], [("AA11", "alice")]⟩ "AA11"
      = .ok ⟨[("alice", "AA11")], [("AA11", "alice")]⟩
          [Action.stderrMsg (contactIsMsg "alice")] := by
  have h1 := authoriseRemember_modes
    ⟨[("alice", "AA11")], [("AA11", "alice")]⟩ "BB22" "bob" (by decide)
  have h2 := authoriseRemember_modes
    ⟨[("alice", "AA11")], [("AA11", "alice")]⟩ "BB22" "alice" (by decide)
  have h3 := authoriseRemember_modes
    ⟨[("alice", "AA11")], [("AA11", "alice")]⟩ "AA11" "alice" (by decide)
  exact ⟨h1.2.2.2.trans (by decide), h2.2.1.trans (by decide), h3.1.trans (by decide)⟩

/-- Whether flag validation succeeded (`.ok`, the connection proceeds). -/
def flagsOk {α : Type} : Except String α → Bool
  | .ok _ => true
  | .error _ => false

/-- C4 counterexample: with no authorization flags set (none of the
claim's four exit conditions holds), `parseConversationFlags` still exits
fatally for `listen` given a remote (non-`:port`) address argument. -/
theorem parseConversationFlags_counterexample :
    flagsOk (parseConversationFlags false "" "" [] "listen" ["example.com"] OTRPort)
      = false
    ∧ ¬((("" : String) ≠ "" ∧ ("" : String) ≠ "")
      ∨ (false = true ∧ ("" : String) ≠ "")
      ∨ (("" : String) ≠ "" ∧ ((([] : List (String × String)).lookup "").isNone = true))
      ∨ (("" : String) ≠ "" ∧ ((([] : List (String × String)).lookup "").isSome = true))) := by
  exact ⟨by decide, by decide⟩

/-- The address-handling tail of `parseConversationFlags` fails exactly
for `listen` with a single positional argument not starting with `:`. -/
theorem flagsOk_tail_iff (anyone : Bool) (address cmdName : String) (args : List String) :
    flagsOk (if cmdName = "proxy" then (.ok (anyone, address) : Except String (Bool × String))
      else match args with
        | [a] =>
          if cmdName = "listen" && !(strHasPrefix a ":") then .error (cantListenMsg a)
          else .ok (anyone, if strContainsColon a then a else a ++ OTRPort)
        | _ => .ok (anyone, address)) = false
    ↔ (cmdName = "listen" ∧ ∃ a, args = [a] ∧ strHasPrefix a ":" = false) := by
  by_cases hcmd : cmdName = "proxy"
  · subst hcmd
    simp [flagsOk]
  · rw [if_neg hcmd]
    cases args with
    | nil => simp [flagsOk]
    | cons a t =>
      cases t with
      | nil =>
        by_cases hl : cmdName = "listen"
        · subst hl
          by_cases hpre : strHasPrefix a ":"
          · simp [flagsOk, hpre]
          · simp [flagsOk, hpre]
        · simp [flagsOk, hl]
      | cons b t2 => simp [flagsOk]

/-- C4 (amended): `parseConversationFlags` exits fatally exactly when one
of the claim's four flag conditions holds, or — the amendment — the
command is `listen` with a positional address argument that does not start
with `:`.  When it does not exit, `connect` proceeds to dial. -/
theorem parseConversationFlags_errors (anyone0 : Bool) (remember expect : String)
    (contacts : List (String × String)) (cmdName : String) (args : List String)
    (address : String) :
    (flagsOk (parseConversationFlags anyone0 remember expect contacts cmdName
          args address) = false
      ↔ ((expect ≠ "" ∧ remember ≠ "")
        ∨ (anyone0 = true ∧ expect ≠ "")
        ∨ (expect ≠ "" ∧ (contacts.lookup expect).isNone = true)
        ∨ (remember ≠ "" ∧ (contacts.lookup remember).isSome = true)
        ∨ (cmdName = "listen" ∧ ∃ a, args = [a] ∧ strHasPrefix a ":" = false)))
    ∧ ((∃ addr, ConnectStep.dial addr ∈
          connectRun anyone0 remember expect contacts args address)
      ↔ flagsOk (parseConversationFlags anyone0 remember expect contacts "connect"
          args address) = true) := by
  constructor
  · by_cases he : expect = ""
    · by_cases hr : remember = ""
      · have h1 := flagsOk_tail_iff anyone0 address cmdName args
        simp only [parseConversationFlags, he, hr]
        simpa using h1
      · by_cases hk : (contacts.lookup remember).isSome
        · simp [parseConversationFlags, he, hr, hk, flagsOk]
        · have hk2 : (contacts.lookup remember).isSome = false := by
            cases hb : (contacts.lookup remember).isSome
            · rfl
            · exact absurd hb hk
          have h1 := flagsOk_tail_iff true address cmdName args
          simp only [parseConversationFlags, he, hr, hk2]
          simpa [hr, hk2] using h1
    · by_cases hr : remember = ""
      · by_cases ha : anyone0
        · simp [parseConversationFlags, he, hr, ha, flagsOk]
        · have ha2 : anyone0 = false := by
            cases hb : anyone0
            · rfl
            · exact absurd hb ha
          by_cases hk : (contacts.lookup expect).isNone
          · simp [parseConversationFlags, he, hr, ha2, hk, flagsOk]
          · have hk2 : (contacts.lookup expect).isNone = false := by
              cases hb : (contacts.lookup expect).isNone
              · rfl
              · exact absurd hb hk
            have h1 := flagsOk_tail_iff anyone0 address cmdName args
            simp only [parseConversationFlags, he, hr, ha2, hk2]
            simpa [he, hr, ha2, hk2] using h1
      · simp [parseConversationFlags, he, hr, flagsOk]
  · cases hp : parseConversationFlags anyone0 remember expect contacts "connect"
        args address with
    | error m => simp [connectRun, hp, flagsOk]
    | ok v => simp [connectRun, hp, flagsOk]

/-! ## Claim theorems: the event loop -/

/-- The effects of a successful authorization are stderr reports and the
contact-store write; no plaintext is ever emitted by it. -/
theorem authoriseRemember_no_stdout (cfg : Config) (book : ContactBook)
    (fp : String) (book' : ContactBook) (effects : List Action)
    (h : authoriseRemember cfg book fp = .ok book' effects) :
    ∀ p, Action.stdOut p ∉ effects := by
  intro p
  simp only [authoriseRemember] at h
  split at h
  · split at h
    · exact AuthResult.noConfusion h
    · split at h
      · exact AuthResult.noConfusion h
      · simp only [AuthResult.ok.injEq] at h
        rw [← h.2]
        simp
  · split at h
    · exact AuthResult.noConfusion h
    · simp only [AuthResult.ok.injEq] at h
      rw [← h.2]
      simp only [List.mem_append, not_or]
      refine ⟨⟨?_, ?_⟩, ?_⟩ <;> split <;> simp

/-- No local-output enqueue occurs among a receive cycle's engine calls
and remote enqueues. -/
theorem no_stdout_in_netouts (p : Bytes) (x : List Bytes) :
    Action.stdOut p ∉ Action.callRecv :: List.map Action.netOut x := by
  intro hmem
  rcases List.mem_cons.mp hmem with h | h
  · cases h
  · rcases List.mem_map.mp h with ⟨y, _, hy⟩
    cases hy

theorem deliver_fatal (s : LoopState) (r : RecvResult) (tr : List Action)
    (hplen : r.plaintext.length > 0) (hfail : (!r.encrypted || !s.authorised) = true) :
    deliver s r tr = .fatal unencryptedMsg tr := by
  unfold deliver
  rw [if_pos hplen, if_pos hfail]

theorem deliver_ok (s : LoopState) (r : RecvResult) (tr : List Action)
    (hplen : r.plaintext.length > 0) (hok : (!r.encrypted || !s.authorised) = false) :
    deliver s r tr = .cont s (tr ++ [Action.stdOut r.plaintext]) := by
  unfold deliver
  rw [if_pos hplen, if_neg (by simp [hok])]

theorem deliver_trace (s : LoopState) (r : RecvResult) (tr : List Action) :
    ∃ rest, (deliver s r tr).trace = tr ++ rest := by
  unfold deliver
  split
  · split
    · exact ⟨[], by simp [StepOut.trace]⟩
    · exact ⟨[Action.stdOut r.plaintext], rfl⟩
  · exact ⟨[], by simp [StepOut.trace]⟩

/-- With `conv.IsEncrypted()` false, a normally received frame goes
straight to the plaintext check with the state unchanged. -/
theorem step_netIn_noenc (cfg : Config) (s : LoopState) (r : RecvResult)
    (herr : r.err = none) (hend : r.ended = false) (hie : r.isEncryptedNow = false) :
    step cfg s (.netIn (some r)) =
      deliver s r (Action.callRecv :: r.toSend.map Action.netOut) := by
  simp [step, herr, hend, hie]

/-- With the session authorised and the fingerprint unchanged, a normally
received frame goes to the plaintext check with the state unchanged. -/
theorem step_netIn_auth_match (cfg : Config) (s : LoopState) (r : RecvResult)
    (herr : r.err = none) (hend : r.ended = false) (hauth : s.authorised = true)
    (hie : r.isEncryptedNow = true) (hfp : s.theirFingerprint = r.fingerprint) :
    step cfg s (.netIn (some r)) =
      deliver s r (Action.callRecv :: r.toSend.map Action.netOut) := by
  simp [step, herr, hend, hie, hauth, hfp]

/-- First encryption with an allowed contact: the fingerprint is recorded,
the session becomes authorised, the local pumps start, then the plaintext
check runs. -/
theorem step_netIn_authorize (cfg : Config) (s : LoopState) (r : RecvResult)
    (book' : ContactBook) (effects : List Action)
    (herr : r.err = none) (hend : r.ended = false) (hauth : s.authorised = false)
    (hie : r.isEncryptedNow = true)
    (hall : authoriseRemember cfg s.book r.fingerprint = .ok book' effects) :
    step cfg s (.netIn (some r)) =
      deliver ⟨true, r.fingerprint, book'⟩ r
        ((Action.callRecv :: r.toSend.map Action.netOut) ++ effects
          ++ [Action.startLocalPumps]) := by
  simp [step, herr, hend, hie, hauth, hall]

/-- First encryption with a rejected contact: the policy's exit is fatal. -/
theorem step_netIn_reject (cfg : Config) (s : LoopState) (r : RecvResult)
    (m : String)
    (herr : r.err = none) (hend : r.ended = false) (hauth : s.authorised = false)
    (hie : r.isEncryptedNow = true)
    (hex : authoriseRemember cfg s.book r.fingerprint = .exited m) :
    step cfg s (.netIn (some r)) =
      .fatal m (Action.callRecv :: r.toSend.map Action.netOut) := by
  simp [step, herr, hend, hie, hauth, hex]

/-- The `authorised` flag as it stands at the plaintext check of an
iteration that reaches it: it has just been set when `conv.IsEncrypted()`
reported true and the authorization policy allowed the contact. -/
def authAtCheck (cfg : Config) (s : LoopState) (r : RecvResult) : Bool :=
  s.authorised || (r.isEncryptedNow && (authoriseRemember cfg s.book r.fingerprint).isAllow)

/-- C1: a remote frame whose receive yields non-empty plaintext while the
engine reports the channel not encrypted, or while the session is not
authorised at the check, makes the process exit fatally with the
"Received unencrypted or unauthenticated text." diagnostic, and the
plaintext is never enqueued on the local output queue.  (The two side
hypotheses state that no other violation — a mid-session fingerprint
change or an authorization rejection — preempts the plaintext check.) -/
theorem no_early_plaintext (cfg : Config) (s : LoopState) (r : RecvResult)
    (herr : r.err = none) (hend : r.ended = false)
    (hp : r.plaintext ≠ [])
    (hcond : r.encrypted = false ∨ authAtCheck cfg s r = false)
    (hnochange : r.isEncryptedNow = true → s.authorised = true →
      s.theirFingerprint = r.fingerprint)
    (hnoreject : r.isEncryptedNow = true → s.authorised = false →
      (authoriseRemember cfg s.book r.fingerprint).isAllow = true) :
    ∃ tr, step cfg s (.netIn (some r)) = .fatal unencryptedMsg tr
      ∧ ∀ p, Action.stdOut p ∉ tr := by
  have hplen : r.plaintext.length > 0 := List.length_pos.mpr hp
  cases ha : s.authorised with
  | true =>
    have hcenc : r.encrypted = false := by
      rcases hcond with hc | hc
      · exact hc
      · rw [authAtCheck, ha] at hc
        simp at hc
    cases hie : r.isEncryptedNow with
    | false =>
      rw [step_netIn_noenc cfg s r herr hend hie,
        deliver_fatal s r _ hplen (by simp [hcenc])]
      exact ⟨_, rfl, fun p => no_stdout_in_netouts p _⟩
    | true =>
      rw [step_netIn_auth_match cfg s r herr hend ha hie (hnochange hie ha),
        deliver_fatal s r _ hplen (by simp [hcenc])]
      exact ⟨_, rfl, fun p => no_stdout_in_netouts p _⟩
  | false =>
    cases hie : r.isEncryptedNow with
    | false =>
      rw [step_netIn_noenc cfg s r herr hend hie,
        deliver_fatal s r _ hplen (by simp [ha])]
      exact ⟨_, rfl, fun p => no_stdout_in_netouts p _⟩
    | true =>
      have hallow := hnoreject hie ha
      cases hall : authoriseRemember cfg s.book r.fingerprint with
      | exited m =>
        rw [hall] at hallow
        simp [AuthResult.isAllow] at hallow
      | ok book' effects =>
        have hcenc : r.encrypted = false := by
          rcases hcond with hc | hc
          · exact hc
          · rw [authAtCheck, ha, hie, hall] at hc
            simp [AuthResult.isAllow] at hc
        rw [step_netIn_authorize cfg s r book' effects herr hend ha hie hall,
          deliver_fatal _ r _ hplen (by simp [hcenc])]
        refine ⟨_, rfl, ?_⟩
        intro p hmem
        rcases List.mem_append.mp hmem with hmem | hmem
        · rcases List.mem_append.mp hmem with hmem | hmem
          · exact no_stdout_in_netouts p _ hmem
          · exact authoriseRemember_no_stdout cfg s.book r.fingerprint book' effects
              hall p hmem
        · simp at hmem

/-- Witness for C1: an already-authorised session receives a frame whose
decrypted payload is non-empty but whose `encrypted` flag is false; the
step is the fatal protocol-violation exit and no local output is
enqueued. -/
theorem no_early_plaintext_witness :
    ∃ tr, step defaultCfg ⟨true, "F", ⟨[], []⟩⟩
        (.netIn (some ⟨[65], false, false, [], none, true, "F"⟩))
      = .fatal unencryptedMsg tr ∧ ∀ p, Action.stdOut p ∉ tr :=
  no_early_plaintext defaultCfg ⟨true, "F", ⟨[], []⟩⟩
    ⟨[65], false, false, [], none, true, "F"⟩
    rfl rfl (by decide) (Or.inl rfl) (fun _ _ => rfl) (fun _ h => by cases h)

/-- C2: once authorised with a recorded fingerprint, any later frame for
which the engine reports an encrypted channel and a different fingerprint
is the fatal "contact changed mid-conversation" exit — the contact book
(so whether the new fingerprint is known) plays no role. -/
theorem contact_change_aborts (cfg : Config) (s : LoopState) (r : RecvResult)
    (hauth : s.authorised = true) (herr : r.err = none) (hend : r.ended = false)
    (hie : r.isEncryptedNow = true) (hfp : s.theirFingerprint ≠ r.fingerprint) :
    step cfg s (.netIn (some r)) =
      .fatal contactChangedMsg (Action.callRecv :: r.toSend.map Action.netOut)
      ∧ ∀ p, Action.stdOut p ∉ Action.callRecv :: r.toSend.map Action.netOut := by
  refine ⟨?_, fun p => no_stdout_in_netouts p _⟩
  simp [step, herr, hend, hie, hauth, hfp]

/-- Witness for C2: the session was authorised for fingerprint "F"; the
peer now reports "G", which is even a known contact ("bob") in the book —
the step is still the fatal contact-change exit. -/
theorem contact_change_aborts_witness :
    step anyoneCfg ⟨true, "F", ⟨[("bob", "G")], [("G", "bob")]⟩⟩
        (.netIn (some ⟨[], true, false, [[7]], none, true, "G"⟩))
      = .fatal contactChangedMsg [Action.callRecv, Action.netOut [7]]
      ∧ ∀ p, Action.stdOut p ∉ [Action.callRecv, Action.netOut [7]] := by
  have h := contact_change_aborts anyoneCfg ⟨true, "F", ⟨[("bob", "G")], [("G", "bob")]⟩⟩
    ⟨[], true, false, [[7]], none, true, "G"⟩ rfl rfl rfl rfl (by decide)
  exact ⟨h.1.trans (by decide), fun p => h.2 p⟩

/-- C7 counterexample: a dequeued local buffer containing a null byte
prints the text-encoding diagnostic and leaves the loop into the graceful
shutdown path; once the peer closes, `mainLoop` returns normally — the
process exits with status 0, not the claimed non-zero status. -/
theorem null_byte_counterexample :
    runLoop defaultCfg [[9]] ⟨true, "F", ⟨[], []⟩⟩
        [.stdIn (some ([0], ⟨[], none⟩)), .netIn none]
      = ⟨.returned, [Action.stderrMsg utf8Msg, Action.callEnd, Action.netOut [9],
          Action.netOutNil]⟩
    ∧ (∀ m, Outcome.returned ≠ Outcome.fatal m)
    ∧ (∀ p, Action.callSend p ∉ [Action.stderrMsg utf8Msg, Action.callEnd,
        Action.netOut [9], Action.netOutNil]) := by
  refine ⟨by decide, fun m h => Outcome.noConfusion h, fun p hmem => by simp at hmem⟩

/-- C7 (amended): a local buffer with an embedded null byte is rejected
with the text-encoding diagnostic, is never handed to `conv.Send`, and —
rather than a non-zero exit — triggers the graceful ending: termination
frames, the stop sentinel, and a normal return (exit 0) once the remote
queue closes. -/
theorem null_byte_rejection (cfg : Config) (s : LoopState) (p : Bytes)
    (sr : SendResult) (evs : List Event) (endFrames : List Bytes)
    (hnull : containsNull p = true) :
    step cfg s (.stdIn (some (p, sr))) = .breakLoop [Action.stderrMsg utf8Msg]
    ∧ (∀ q, Action.callSend q ∉ [Action.stderrMsg utf8Msg])
    ∧ runLoop cfg endFrames s (.stdIn (some (p, sr)) :: evs) =
        ⟨if hasNetInClosed evs then .returned else .blocked,
         Action.stderrMsg utf8Msg :: Action.callEnd ::
           (endFrames.map Action.netOut ++ [Action.netOutNil])⟩ := by
  have hs : step cfg s (.stdIn (some (p, sr))) = .breakLoop [Action.stderrMsg utf8Msg] := by
    simp [step, hnull]
  refine ⟨hs, fun q hmem => by simp at hmem, ?_⟩
  simp only [runLoop, hs]
  simp

/-- Witness for C7 (amended): the concrete run of the counterexample,
through the amended description. -/
theorem null_byte_rejection_witness :
    runLoop defaultCfg [[9]] ⟨true, "F", ⟨[], []⟩⟩
        [.stdIn (some ([0], ⟨[], none⟩)), .netIn none]
      = ⟨if hasNetInClosed [.netIn none] then .returned else .blocked,
         Action.stderrMsg utf8Msg :: Action.callEnd ::
           (List.map Action.netOut [[9]] ++ [Action.netOutNil])⟩ :=
  (null_byte_rejection defaultCfg ⟨true, "F", ⟨[], []⟩⟩ [0] ⟨[], none⟩
    [.netIn none] [[9]] (by decide)).2.2

/-- C8: a locally triggered ending (interrupt signal or local end of
stream) enqueues `conv.End()`'s frames in order, then the `nil` stop
sentinel, and the loop returns — permitting exit status 0 — exactly when
the remote-inbound queue subsequently reports closure, never before. -/
theorem graceful_close_ordering (cfg : Config) (endFrames : List Bytes)
    (s : LoopState) (ev : Event) (evs : List Event)
    (hend : ev = .sigTerm ∨ ev = .stdIn none) :
    runLoop cfg endFrames s (ev :: evs) =
      ⟨if hasNetInClosed evs then .returned else .blocked,
       Action.callEnd :: (endFrames.map Action.netOut ++ [Action.netOutNil])⟩
    ∧ ((runLoop cfg endFrames s (ev :: evs)).outcome = .returned
        ↔ hasNetInClosed evs = true) := by
  have hs : step cfg s ev = .breakLoop [] := by
    rcases hend with rfl | rfl <;> rfl
  constructor
  · simp only [runLoop, hs]
    simp
  · simp only [runLoop, hs]
    cases h : hasNetInClosed evs <;> simp [h]

/-- Witness for C8: an interrupt followed by remote closure returns with
the End frames and the sentinel enqueued in order; without the closure
event the run stays blocked. -/
theorem graceful_close_ordering_witness :
    runLoop defaultCfg [[1], [2]] ⟨true, "F", ⟨[], []⟩⟩ [.sigTerm, .netIn none]
      = ⟨.returned, [Action.callEnd, Action.netOut [1], Action.netOut [2],
          Action.netOutNil]⟩
    ∧ runLoop defaultCfg [[1], [2]] ⟨true, "F", ⟨[], []⟩⟩ [.sigTerm]
      = ⟨.blocked, [Action.callEnd, Action.netOut [1], Action.netOut [2],
          Action.netOutNil]⟩ := by
  have h1 := (graceful_close_ordering defaultCfg [[1], [2]] ⟨true, "F", ⟨[], []⟩⟩
    .sigTerm [.netIn none] (Or.inl rfl)).1
  have h2 := (graceful_close_ordering defaultCfg [[1], [2]] ⟨true, "F", ⟨[], []⟩⟩
    .sigTerm [] (Or.inl rfl)).1
  exact ⟨h1.trans (by decide), h2.trans (by decide)⟩

/-- C9 counterexample: when `conv.Receive` signals `ConversationEnded`
and also returns frames to transmit, `mainLoop` returns before
`send(toSend)` — the frames are not enqueued, contradicting the claim's
"including in the case where the peer ended the session". -/
theorem conversation_ended_counterexample :
    step defaultCfg ⟨false, "", ⟨[], []⟩⟩
        (.netIn (some ⟨[], false, true, [[1]], none, false, ""⟩))
      = .ret [Action.callRecv]
    ∧ Action.netOut [1] ∉ [Action.callRecv] := by
  refine ⟨by decide, by decide⟩

/-- C9 (amended): every frame returned by `conv.Receive` is enqueued to
the remote-outbound queue in order — except when the session-state signal
says the peer ended the session, in which case `mainLoop` returns
immediately and the returned frames are not enqueued. -/
theorem receive_frames_enqueued (cfg : Config) (s : LoopState) (r : RecvResult)
    (herr : r.err = none) :
    (r.ended = true → step cfg s (.netIn (some r)) = .ret [Action.callRecv])
    ∧ (r.ended = false → ∃ rest, (step cfg s (.netIn (some r))).trace
        = Action.callRecv :: (r.toSend.map Action.netOut ++ rest)) := by
  constructor
  · intro he
    simp [step, herr, he]
  · intro he
    cases hie : r.isEncryptedNow with
    | false =>
      rw [step_netIn_noenc cfg s r herr he hie]
      obtain ⟨rest, hrest⟩ := deliver_trace s r _
      exact ⟨rest, by rw [hrest]; simp⟩
    | true =>
      cases ha : s.authorised with
      | true =>
        by_cases hfp : s.theirFingerprint = r.fingerprint
        · rw [step_netIn_auth_match cfg s r herr he ha hie hfp]
          obtain ⟨rest, hrest⟩ := deliver_trace s r _
          exact ⟨rest, by rw [hrest]; simp⟩
        · have hstep : step cfg s (.netIn (some r))
              = .fatal contactChangedMsg (Action.callRecv :: r.toSend.map Action.netOut) := by
            simp [step, herr, he, hie, ha, hfp]
          rw [hstep]
          exact ⟨[], by simp [StepOut.trace]⟩
      | false =>
        cases hall : authoriseRemember cfg s.book r.fingerprint with
        | exited m =>
          rw [step_netIn_reject cfg s r m herr he ha hie hall]
          exact ⟨[], by simp [StepOut.trace]⟩
        | ok book' effects =>
          rw [step_netIn_authorize cfg s r book' effects herr he ha hie hall]
          obtain ⟨rest, hrest⟩ := deliver_trace ⟨true, r.fingerprint, book'⟩ r _
          refine ⟨effects ++ [Action.startLocalPumps] ++ rest, ?_⟩
          rw [hrest]
          simp [List.append_assoc]

/-- Witness for C9 (amended): a normally received frame with one engine
frame to transmit enqueues it right after the receive call; and with the
peer-ended signal the step returns with nothing enqueued. -/
theorem receive_frames_enqueued_witness :
    (∃ rest, (step defaultCfg ⟨true, "F", ⟨[], []⟩⟩
        (.netIn (some ⟨[], true, false, [[5]], none, true, "F"⟩))).trace
      = Action.callRecv :: (List.map Action.netOut [[5]] ++ rest))
    ∧ step defaultCfg ⟨true, "F", ⟨[], []⟩⟩
        (.netIn (some ⟨[], true, true, [[5]], none, true, "F"⟩))
      = .ret [Action.callRecv] := by
  have h1 := (receive_frames_enqueued defaultCfg ⟨true, "F", ⟨[], []⟩⟩
    ⟨[], true, false, [[5]], none, true, "F"⟩ rfl).2 rfl
  have h2 := (receive_frames_enqueued defaultCfg ⟨true, "F", ⟨[], []⟩⟩
    ⟨[], true, true, [[5]], none, true, "F"⟩ rfl).1 rfl
  exact ⟨h1, h2⟩

/-- C10: received plaintext is not subject to the null-byte text-safety
check: an authorised, encrypted frame's non-empty plaintext — null bytes
and all — is enqueued to the local output queue byte-for-byte. -/
theorem received_plaintext_delivered (cfg : Config) (s : LoopState) (r : RecvResult)
    (hauth : s.authorised = true) (herr : r.err = none) (hend : r.ended = false)
    (henc : r.encrypted = true)
    (hfp : r.isEncryptedNow = true → s.theirFingerprint = r.fingerprint)
    (hp : r.plaintext ≠ []) :
    step cfg s (.netIn (some r)) =
      .cont s (Action.callRecv ::
        (r.toSend.map Action.netOut ++ [Action.stdOut r.plaintext])) := by
  have hplen := List.length_pos.mpr hp
  have hok : (!r.encrypted || !s.authorised) = false := by simp [henc, hauth]
  cases hie : r.isEncryptedNow with
  | false =>
    rw [step_netIn_noenc cfg s r herr hend hie, deliver_ok s r _ hplen hok]
    simp
  | true =>
    rw [step_netIn_auth_match cfg s r herr hend hauth hie (hfp hie),
      deliver_ok s r _ hplen hok]
    simp

/-- Witness for C10: the received plaintext `[0, 65]` — with an embedded
null byte — is delivered unmodified to the local output queue. -/
theorem received_plaintext_delivered_witness :
    step defaultCfg ⟨true, "F", ⟨[], []⟩⟩
        (.netIn (some ⟨[0, 65], true, false, [], none, true, "F"⟩))
      = .cont ⟨true, "F", ⟨[], []⟩⟩ [Action.callRecv, Action.stdOut [0, 65]] := by
  have h := received_plaintext_delivered defaultCfg ⟨true, "F", ⟨[], []⟩⟩
    ⟨[0, 65], true, false, [], none, true, "F"⟩ rfl rfl rfl rfl (fun _ => rfl) (by decide)
  exact h.trans (by decide)

end Otrcat
